import Mathlib

/-!
# Verification of `dead` — dead-simple python dead code detection

A shallow embedding of `dead.py` (the define/use analysis engine of the
`dead` static-analysis tool) together with theorems settling the frozen
claims about its specification.

Conventions of the embedding:
* Python `defaultdict(str -> set[FileLine])` maps are modelled as
  association lists `List (String × List String)` in key insertion order,
  each key's location list deduplicated in insertion order (Python's
  `set.add`).  All set iteration in the reconciler goes through `sorted`
  or order-free set operations, so this representation is faithful.
* Machine-level concerns (file IO, `git ls-files`, tokenization) are out
  of scope; the functions below receive their results as arguments.
-/

namespace dead

/-- Type `FileLine` — a `file:line` location token (`dead.py` line 22). -/
abbrev FileLine := String

/-- Type `UsageMap = DefaultDict[str, set[FileLine]]` (`dead.py` line 23),
modelled as an insertion-ordered association list with deduplicated
location lists. -/
abbrev UsageMap := List (String × List FileLine)

/-- Operation `usage_map[name].add(loc)` on a `defaultdict(set)`: if the key is
present, add `loc` to its set (no-op when already present); otherwise
append the key with a singleton set. -/
def addU : UsageMap → String → FileLine → UsageMap
  | [], k, l => [(k, [l])]
  | (k', ls) :: rest, k, l =>
    if k' = k then (k', if l ∈ ls then ls else ls ++ [l]) :: rest
    else (k', ls) :: addU rest k l

/-- Test `loc in usage_map[name]` — membership of a location in a key's set. -/
def memU (m : UsageMap) (k : String) (l : FileLine) : Bool :=
  m.any fun p => p.1 = k && l ∈ p.2

/-- Test `name in usage_map` — key presence (Python `in` on the dict). -/
def hasKey (m : UsageMap) (k : String) : Bool :=
  m.any fun p => p.1 = k

/-- Source `class Scope` (`dead.py` lines 34-38): three name-keyed usage maps. -/
structure Scope where
  reads : UsageMap
  defines : UsageMap
  reads_tests : UsageMap
deriving DecidableEq, Repr

/-- Source `Scope.__init__`: all three maps start empty. -/
def Scope.init : Scope := ⟨[], [], []⟩

/-! ## The disable-comment pattern

`DISABLE_COMMENT_RE = re.compile(r'\bdead\s*:\s*disable')`
(`dead.py` line 25), embedded as an executable search over the
character list of the comment text. -/

/-- ASCII fragment of the word-character class used by the pattern's
`\b` assertion: `[A-Za-z0-9_]`.  The program compiles the pattern from a
`str`, so its `\b` uses the full Unicode word class; the two classes
agree on every ASCII character, and the marker-recording theorem below
only assumes a boundary at an ASCII character, so every input it covers
matches in the program as well. -/
def isWordChar (c : Char) : Bool :=
  ('a' ≤ c && c ≤ 'z') || ('A' ≤ c && c ≤ 'Z') || ('0' ≤ c && c ≤ '9') || c = '_'

/-- ASCII fragment of the pattern's `\s` class: space, tab, newline,
carriage return, vertical tab, form feed.  Python's `\s` additionally
matches non-ASCII Unicode whitespace; every character accepted here is
accepted by the program, so occurrences built from these characters also
match in the program. -/
def pyWs (c : Char) : Bool :=
  c = ' ' || c = '\t' || c = '\n' || c = '\r' || c = '\x0b' || c = '\x0c'

/-- Match a literal character sequence at the head of the input,
returning the rest on success. -/
def stripLit : List Char → List Char → Option (List Char)
  | [], l => some l
  | _ :: _, [] => none
  | p :: ps, c :: cs => if p = c then stripLit ps cs else none

/-- Match `:\s*disable` after the leading whitespace has been dropped. -/
def matchColon : List Char → Bool
  | ':' :: l₃ => (stripLit "disable".toList (l₃.dropWhile pyWs)).isSome
  | _ => false

/-- Does `dead\s*:\s*disable` match starting at the head of the input?
(`\s*` is greedy; since `:` is not a whitespace character the greedy
match is exact.) -/
def matchFrom (l : List Char) : Bool :=
  match stripLit "dead".toList l with
  | none => false
  | some l₁ => matchColon (l₁.dropWhile pyWs)

/-- Scan for a match of `\bdead\s*:\s*disable` at any position; the
accumulator records whether the previous character was a word character
(the `\b` assertion: the `d` of `dead` is a word character, so the
boundary holds exactly when the previous character is not one, or we are
at the start of the string). -/
def searchAux : Bool → List Char → Bool
  | _, [] => false
  | prevW, c :: rest =>
    (!prevW && matchFrom (c :: rest)) || searchAux (isWordChar c) rest

/-- Source `DISABLE_COMMENT_RE.search(line)` as a Boolean (exact on
ASCII text; see `isWordChar` and `pyWs` for the treatment of the
pattern's Unicode character classes). -/
def disableSearch (line : String) : Bool :=
  searchAux false line.toList

/-! ## The Visitor -/

/-- Source `class Visitor` state (`dead.py` lines 41-49).  The scope stack
`scopes` has its top at the *end* of the list, matching Python's
`append` / `pop` / `scopes[-1]` usage. -/
structure Visitor where
  _track_args : Bool
  filename : String
  is_test : Bool
  previous_scopes : List Scope
  scopes : List Scope
  disabled : List FileLine
deriving DecidableEq, Repr

/-- Source `Visitor.__init__(track_args=...)` (`dead.py` lines 42-49). -/
def Visitor.init (track_args : Bool) : Visitor :=
  ⟨track_args, "", false, [], [Scope.init], []⟩

/-- Source `Visitor._file_line` (`dead.py` lines 74-75). -/
def _file_line (filename : String) (line : Nat) : FileLine :=
  s!"{filename}:{line}"

/-- Source `Visitor.definition_str` (`dead.py` lines 77-78): the node is
represented by its `lineno`. -/
def Visitor.definition_str (v : Visitor) (lineno : Nat) : FileLine :=
  _file_line v.filename lineno

/-- Apply `f` to the last element of a list (Python `l[-1]`); the empty
case is unreachable in the tool (the module scope is always present). -/
def updateLast (f : Scope → Scope) : List Scope → List Scope
  | [] => []
  | [x] => [f x]
  | x :: y :: xs => x :: updateLast f (y :: xs)

/-- Source `Visitor.define` (`dead.py` lines 80-82): outside test files, add
the definition location to `defines[name]` of the topmost scope only. -/
def Visitor.define (v : Visitor) (name : String) (lineno : Nat) : Visitor :=
  if ¬v.is_test then
    let f := fun s => { s with defines := addU s.defines name (v.definition_str lineno) }
    { v with scopes := updateLast f v.scopes }
  else v

/-- Source `Visitor.read` (`dead.py` lines 84-89): add the location to
`reads_tests[name]` (test file) or `reads[name]` (otherwise) of every
scope on the stack. -/
def Visitor.read (v : Visitor) (name : String) (lineno : Nat) : Visitor :=
  { v with scopes :=
      v.scopes.map fun s =>
        if v.is_test then
          { s with reads_tests := addU s.reads_tests name (v.definition_str lineno) }
        else
          { s with reads := addU s.reads name (v.definition_str lineno) } }

/-- Entering `Visitor.scope()` (`dead.py` line 68): push a fresh scope. -/
def Visitor.pushScope (v : Visitor) : Visitor :=
  { v with scopes := v.scopes ++ [Scope.init] }

/-- Leaving `Visitor.scope()` (`dead.py` line 72): pop the top scope and
append it to `previous_scopes`. -/
def Visitor.popScope (v : Visitor) : Visitor :=
  { v with
      scopes := v.scopes.dropLast,
      previous_scopes := v.previous_scopes ++
        (match v.scopes.getLast? with | some s => [s] | none => []) }

/-- Set-insert into the `disabled` set (Python `set.add`). -/
def addSet (l : List FileLine) (x : FileLine) : List FileLine :=
  if x ∈ l then l else l ++ [x]

/-- Source `Visitor.visit_comment` (`dead.py` lines 200-202): record a disable
marker when the comment text matches `DISABLE_COMMENT_RE`; nothing else
is done with comments. -/
def Visitor.visit_comment (v : Visitor) (lineno : Nat) (line : String) : Visitor :=
  if disableSearch line then
    { v with disabled := addSet v.disabled (_file_line v.filename lineno) }
  else v

/-! ## A syntax-tree fragment

The sublanguage of the Python `ast` needed by the claims about
`_is_stub_function` and `visit_FunctionDef`: constant values, load-context
names, calls, expression statements, `pass`, `raise` and simple-name
assignments.  Every node carries the `lineno` the real `ast` gives it. -/

/-- Source `ast.Constant` values distinguished by `_is_stub_function`'s
`isinstance(stmt.value.value, (str, type(Ellipsis)))` check: strings and
`...` match, other constants do not. -/
inductive Const where
  | str : String → Const
  | ellipsis : Const
  | num : Int → Const
  | noneC : Const
deriving DecidableEq, Repr

/-- Expression nodes: `ast.Constant`, `ast.Name` (with a Boolean `ctx`
standing for `isinstance(node.ctx, ast.Load)`), `ast.Call`. -/
inductive Exp where
  | constant : Const → Nat → Exp
  | name : String → Bool → Nat → Exp
  | call : Exp → List Exp → Nat → Exp

/-- Statement nodes: `ast.Expr`, `ast.Pass`, `ast.Raise`, and a
single-simple-name `ast.Assign` (the `__all__` special case of
`visit_Assign` requires a tuple/list literal and is therefore vacuous in
this sublanguage). -/
inductive Stmt where
  | expr : Exp → Nat → Stmt
  | passS : Nat → Stmt
  | raiseS : Option Exp → Option Exp → Nat → Stmt
  | assign : String → Exp → Nat → Stmt

/-- Source `ast.arg`: a parameter name with its location. -/
structure Arg where
  arg : String
  lineno : Nat
deriving DecidableEq, Repr

/-- Source `ast.arguments`. -/
structure Arguments where
  posonlyargs : List Arg
  args : List Arg
  vararg : Option Arg
  kwonlyargs : List Arg
  kwarg : Option Arg
deriving DecidableEq, Repr

/-- Source `ast.FunctionDef` / `ast.AsyncFunctionDef` (no nested function or
class definitions in the sublanguage). -/
structure FunctionDef where
  name : String
  lineno : Nat
  args : Arguments
  body : List Stmt

/-- Source `STUB_EXCEPTIONS = frozenset(('AssertionError', 'NotImplementedError'))`
(`dead.py` line 26). -/
def STUB_EXCEPTIONS : List String := ["AssertionError", "NotImplementedError"]

/-- The per-statement test of `Visitor._is_stub_function`'s loop body
(`dead.py` lines 118-142): docstring/ellipsis expression, `pass`, or a
`raise` without cause of an allow-listed exception name or a call to one. -/
def stubStmtOk : Stmt → Bool
  | .expr (.constant (.str _) _) _ => true
  | .expr (.constant .ellipsis _) _ => true
  | .passS _ => true
  | .raiseS exc cause _ =>
    cause.isNone &&
      (match exc with
       | some (.name id _ _) => id ∈ STUB_EXCEPTIONS
       | some (.call (.name id _ _) _ _) => id ∈ STUB_EXCEPTIONS
       | _ => false)
  | _ => false

/-- Source `Visitor._is_stub_function` (`dead.py` lines 117-144): the
`for`/`else` loop returns `False` at the first disqualifying statement
and `True` when none is found. -/
def _is_stub_function (node : FunctionDef) : Bool :=
  node.body.all stubStmtOk

/-- Source `visit_Name` (`dead.py` lines 188-192): record a read for a name in
load context. -/
def Visitor.visit_Name (v : Visitor) (id : String) (ctxLoad : Bool) (lineno : Nat) : Visitor :=
  if ctxLoad then v.read id lineno else v

mutual

/-- Traversal of an expression (the `generic_visit` cascade restricted to
the sublanguage): names in load context are read, calls visit the callee
then the arguments, constants do nothing (the main `Visitor` has no
`visit_Constant`). -/
def Visitor.visitExp (v : Visitor) : Exp → Visitor
  | .constant _ _ => v
  | .name id ctxLoad lineno => v.visit_Name id ctxLoad lineno
  | .call f args _ => Visitor.visitExpList (v.visitExp f) args

/-- Traversal of a list of child expressions. -/
def Visitor.visitExpList (v : Visitor) : List Exp → Visitor
  | [] => v
  | e :: es => Visitor.visitExpList (v.visitExp e) es

end

/-- Traversal of an optional child expression (e.g. `raise`'s `exc` and
`cause` fields). -/
def Visitor.visitOptExp (v : Visitor) : Option Exp → Visitor
  | none => v
  | some e => v.visitExp e

/-- Traversal of one statement: `ast.Expr` and `ast.Raise` only visit
children; `visit_Assign` (`dead.py` lines 163-181) defines the
simple-name target and visits the value (the `__all__` branch needs a
tuple/list literal, absent from the sublanguage). -/
def Visitor.visitStmt (v : Visitor) : Stmt → Visitor
  | .expr e _ => v.visitExp e
  | .passS _ => v
  | .raiseS exc cause _ => (v.visitOptExp exc).visitOptExp cause
  | .assign target value lineno => (v.define target lineno).visitExp value

/-- Traversal of a statement list (a function body). -/
def Visitor.visitStmts (v : Visitor) (body : List Stmt) : Visitor :=
  body.foldl Visitor.visitStmt v

/-- The parameter list `(*posonlyargs, *args, vararg, *kwonlyargs, kwarg)`
of `visit_FunctionDef` (`dead.py` lines 150-156), with the
`if arg is not None` filter applied. -/
def argList (a : Arguments) : List Arg :=
  a.posonlyargs ++ a.args ++ a.vararg.toList ++ a.kwonlyargs ++ a.kwarg.toList

/-- Source `Visitor.visit_FunctionDef` (`dead.py` lines 146-161): define the
function name, push a parameter scope, define the parameters when
argument tracking is on and the body is not a stub, traverse the body,
pop the scope. -/
def Visitor.visit_FunctionDef (v : Visitor) (node : FunctionDef) : Visitor :=
  let v1 := v.define node.name node.lineno
  let v2 := v1.pushScope
  let v3 :=
    if v2._track_args && !(_is_stub_function node) then
      (argList node.args).foldl (fun vv a => vv.define a.arg a.lineno) v2
    else v2
  let v4 := v3.visitStmts node.body
  v4.popScope

/-! ## The reconciler (`main`, `dead.py` lines 331-364)

`main`'s reporting pass is embedded as a pure function from the final
scope list, the disable-marker set and the symbol allow-list to the list
of printed diagnostic lines and the return value.  Set iteration in the
source goes through `sorted`, embedded as an insertion sort under the
string order (on `str`, Python's `sorted` and any correct sort agree,
since equal keys are identical strings). -/

/-- Python `sorted` on a list of strings. -/
def pySorted (l : List String) : List String :=
  l.insertionSort (· ≤ ·)

/-- Line `f'\x7bk\x7d is never read, defined in \x7b", ".join(sorted(v))\x7d'`
(`dead.py` line 350). -/
def neverReadLine (k : String) (v : List FileLine) : String :=
  let locs := String.intercalate ", " (pySorted v)
  s!"{k} is never read, defined in {locs}"

/-- Line `f'\x7bk\x7d is only referenced in tests, defined in ...'`
(`dead.py` lines 353-356). -/
def onlyTestsLine (k : String) (v : List FileLine) : String :=
  let locs := String.intercalate ", " (pySorted v)
  s!"{k} is only referenced in tests, defined in {locs}"

/-- Line `f'\x7bignore\x7d: unused `# dead: disable`'` (`dead.py` line 361). -/
def unusedIgnoreLine (ignore : FileLine) : String :=
  s!"{ignore}: unused `# dead: disable`"

/-- The loop state of the reporting pass: the `unused_ignores`
accumulator, the lines printed so far, and `retv`. -/
structure RecState where
  unused : List FileLine
  out : List String
  retv : Nat
deriving DecidableEq, Repr

/-- The body of `for k, v in scope.defines.items()` (`dead.py` lines
336-357): update `unused_ignores` and `v` when `k` is unread, then run
the classification chain, printing and setting `retv = 1` in the two
reporting branches. -/
def processDefine (disabled allowed : List String) (s : Scope) (st : RecState)
    (kv : String × List FileLine) : RecState :=
  let k := kv.1
  let unread := !(hasKey s.reads k)
  let unused := if unread then st.unused.filter (fun x => !(x ∈ kv.2)) else st.unused
  let v := if unread then kv.2.filter (fun x => !(x ∈ disabled)) else kv.2
  if k ∈ allowed then { st with unused }
  else if k.startsWith "__" && k.endsWith "__" then { st with unused }
  else if k = "cls" || k = "self" then { st with unused }
  else if unread && v.isEmpty then { st with unused }
  else if unread && !(hasKey s.reads_tests k) then
    { unused, out := st.out ++ [neverReadLine k v], retv := 1 }
  else if unread then
    { unused, out := st.out ++ [onlyTestsLine k v], retv := 1 }
  else { st with unused }

/-- One iteration of `for scope in visitor.previous_scopes` (`dead.py`
line 335). -/
def processScope (disabled allowed : List String) (st : RecState) (s : Scope) : RecState :=
  s.defines.foldl (processDefine disabled allowed s) st

/-- The reporting pass of `main` (`dead.py` lines 331-364) given the
final list of closed scopes: run the per-scope loop starting from
`retv = 0` and `unused_ignores = visitor.disabled.copy()`, then report
every surviving member of `unused_ignores` in sorted order.  Returns the
printed lines and `retv`. -/
def reconcile (scopes : List Scope) (disabled allowed : List String) :
    List String × Nat :=
  let st := scopes.foldl (processScope disabled allowed) ⟨disabled, [], 0⟩
  if st.unused.isEmpty then (st.out, st.retv)
  else (st.out ++ (pySorted st.unused).map unusedIgnoreLine, 1)

/-- Source `visitor.previous_scopes.append(visitor.scopes.pop())` (`dead.py`
line 333): the final scope list handed to the reporting loop. -/
def finalScopes (v : Visitor) : List Scope :=
  v.previous_scopes ++ (match v.scopes.getLast? with | some s => [s] | none => [])

/-- The whole report of a run: diagnostics and exit status computed from
the visitor state after all files were walked. -/
def mainReport (v : Visitor) (allowed : List String) : List String × Nat :=
  reconcile (finalScopes v) v.disabled allowed

/-! ## Lemmas about the usage-map operations -/

theorem memU_iff (m : UsageMap) (k : String) (l : FileLine) :
    memU m k l = true ↔ ∃ ls, (k, ls) ∈ m ∧ l ∈ ls := by
  simp only [memU, List.any_eq_true, Bool.and_eq_true, decide_eq_true_eq]
  constructor
  · rintro ⟨⟨a, b⟩, hmem, ha, hl⟩
    simp only at ha hl
    exact ⟨b, ha ▸ hmem, hl⟩
  · rintro ⟨ls, hmem, hl⟩
    exact ⟨(k, ls), hmem, rfl, hl⟩

theorem mem_addU_self (m : UsageMap) (k : String) (l : FileLine) :
    ∃ ls, (k, ls) ∈ addU m k l ∧ l ∈ ls := by
  induction m with
  | nil => exact ⟨[l], by simp [addU], by simp⟩
  | cons p rest ih =>
    obtain ⟨k', ls⟩ := p
    by_cases hk : k' = k
    · subst hk
      refine ⟨if l ∈ ls then ls else ls ++ [l], by simp [addU], ?_⟩
      by_cases hl : l ∈ ls <;> simp [hl]
    · obtain ⟨ls1, h1, h2⟩ := ih
      exact ⟨ls1, by simp [addU, hk, h1], h2⟩

theorem memU_addU_self (m : UsageMap) (k : String) (l : FileLine) :
    memU (addU m k l) k l = true :=
  (memU_iff _ _ _).mpr (mem_addU_self m k l)

theorem mem_addU_of_mem {m : UsageMap} {n : String} {ls0 : List FileLine}
    (k : String) (l : FileLine) (h : (n, ls0) ∈ m) :
    ∃ ls1, (n, ls1) ∈ addU m k l ∧ ls0 ⊆ ls1 := by
  induction m with
  | nil => simp at h
  | cons p rest ih =>
    obtain ⟨k', ls⟩ := p
    rcases List.mem_cons.mp h with h | h
    · rw [Prod.mk.injEq] at h
      obtain ⟨rfl, rfl⟩ := h
      by_cases hk : n = k
      · subst hk
        refine ⟨if l ∈ ls0 then ls0 else ls0 ++ [l], by simp [addU], ?_⟩
        by_cases hl : l ∈ ls0 <;> simp [hl, List.subset_append_left]
      · exact ⟨ls0, by simp [addU, hk], List.Subset.refl _⟩
    · by_cases hk : k' = k
      · subst hk
        exact ⟨ls0, by simp [addU, h], List.Subset.refl _⟩
      · obtain ⟨ls1, h1, h2⟩ := ih h
        exact ⟨ls1, by simp [addU, hk, h1], h2⟩

theorem memU_addU_mono {m : UsageMap} {n : String} {x : FileLine} (k : String) (l : FileLine)
    (h : memU m n x = true) : memU (addU m k l) n x = true := by
  obtain ⟨ls0, h1, h2⟩ := (memU_iff _ _ _).mp h
  obtain ⟨ls1, h1', hsub⟩ := mem_addU_of_mem k l h1
  exact (memU_iff _ _ _).mpr ⟨ls1, h1', hsub h2⟩

theorem mem_addU_inv {n k : String} {l x : FileLine} :
    ∀ {m : UsageMap} {ls1 : List FileLine}, (n, ls1) ∈ addU m k l → x ∈ ls1 →
      memU m n x = true ∨ (n = k ∧ x = l) := by
  intro m
  induction m with
  | nil =>
    intro ls1 h1 h2
    simp [addU] at h1
    obtain ⟨rfl, rfl⟩ := h1
    simp at h2
    exact Or.inr ⟨rfl, h2⟩
  | cons p rest ih =>
    intro ls1 h1 h2
    obtain ⟨k', ls⟩ := p
    by_cases hk : k' = k
    · subst hk
      rw [show addU ((k', ls) :: rest) k' l = (k', if l ∈ ls then ls else ls ++ [l]) :: rest
          from by simp [addU]] at h1
      rcases List.mem_cons.mp h1 with h1 | h1
      · rw [Prod.mk.injEq] at h1
        obtain ⟨rfl, rfl⟩ := h1
        by_cases hl : l ∈ ls
        · rw [if_pos hl] at h2
          exact Or.inl ((memU_iff _ _ _).mpr ⟨ls, List.mem_cons_self _ _, h2⟩)
        · rw [if_neg hl] at h2
          rcases List.mem_append.mp h2 with h2 | h2
          · exact Or.inl ((memU_iff _ _ _).mpr ⟨ls, List.mem_cons_self _ _, h2⟩)
          · exact Or.inr ⟨rfl, by simpa using h2⟩
      · exact Or.inl ((memU_iff _ _ _).mpr ⟨ls1, List.mem_cons_of_mem _ h1, h2⟩)
    · rw [show addU ((k', ls) :: rest) k l = (k', ls) :: addU rest k l
          from by simp [addU, hk]] at h1
      rcases List.mem_cons.mp h1 with h1 | h1
      · rw [Prod.mk.injEq] at h1
        obtain ⟨rfl, rfl⟩ := h1
        exact Or.inl ((memU_iff _ _ _).mpr ⟨_, List.mem_cons_self _ _, h2⟩)
      · rcases ih h1 h2 with h' | h'
        · obtain ⟨ls2, ha, hb⟩ := (memU_iff _ _ _).mp h'
          exact Or.inl ((memU_iff _ _ _).mpr ⟨ls2, List.mem_cons_of_mem _ ha, hb⟩)
        · exact Or.inr h'

theorem memU_addU_inv {m : UsageMap} {n : String} {x : FileLine} {k : String} {l : FileLine}
    (h : memU (addU m k l) n x = true) :
    memU m n x = true ∨ (n = k ∧ x = l) := by
  obtain ⟨ls1, h1, h2⟩ := (memU_iff _ _ _).mp h
  exact mem_addU_inv h1 h2

theorem mem_addSet_self (l : List FileLine) (x : FileLine) : x ∈ addSet l x := by
  unfold addSet
  split
  · assumption
  · simp

theorem updateLast_append (f : Scope → Scope) (init : List Scope) (top : Scope) :
    updateLast f (init ++ [top]) = init ++ [f top] := by
  induction init with
  | nil => rfl
  | cons x xs ih =>
    cases hxs : xs ++ [top] with
    | nil => simp at hxs
    | cons y t =>
      have hstep : updateLast f ((x :: xs) ++ [top]) = x :: updateLast f (xs ++ [top]) := by
        rw [List.cons_append, hxs]
        rfl
      rw [hstep, ih]
      rfl

/-! ## C1 -/

/-- C1: the claim says that walking a file makes `visit_comment` extract
inline type-annotation comments, parse them and re-walk the fragments so
that type names in comments are recorded as reads.  The code does no such
thing: `visit_comment` never touches any scope's maps (it only records
disable markers), so in particular the comment `# type: MyStr` of the
failing input records no read of `MyStr` and leaves the visitor
unchanged. -/
theorem C1_visit_comment_records_no_reads :
    (∀ (v : Visitor) (lineno : Nat) (line : String),
      (v.visit_comment lineno line).scopes = v.scopes ∧
      (v.visit_comment lineno line).previous_scopes = v.previous_scopes) ∧
    (Visitor.init false).visit_comment 2 "# type: MyStr" = Visitor.init false := by
  constructor
  · intro v lineno line
    unfold Visitor.visit_comment
    split <;> exact ⟨rfl, rfl⟩
  · rfl

/-! ## C2 -/

/-- C2 counterexample: under the claim, the comment text merely has to
contain the token sequence, case- and spacing-insensitively, so both
`# DEAD: DISABLE` (the claim's own example) and `# undead: disable`
(which contains `dead: disable`) qualify; the code's pattern
`\bdead\s*:\s*disable` is case-sensitive and anchored at a word
boundary, so `visit_comment` records no disable marker for either
comment (the repository's tests assert both non-matches). -/
theorem C2_counterexample :
    ((Visitor.init false).visit_comment 1 "# DEAD: DISABLE").disabled = [] ∧
    ((Visitor.init false).visit_comment 1 "# undead: disable").disabled = [] :=
  ⟨rfl, rfl⟩

/-- Tracks whether the character preceding the rest of the scan is a word
character: `endWord b pre` is the word-character status after reading
`pre` starting from status `b`. -/
def endWord (b : Bool) : List Char → Bool
  | [] => b
  | c :: cs => endWord (isWordChar c) cs

theorem stripLit_append (p rest : List Char) : stripLit p (p ++ rest) = some rest := by
  induction p with
  | nil => rfl
  | cons c cs ih => simp [stripLit, ih]

theorem dropWhile_ws_append (ws rest : List Char) (h : ws.all pyWs = true)
    (hr : rest.dropWhile pyWs = rest) : (ws ++ rest).dropWhile pyWs = rest := by
  induction ws with
  | nil => simpa using hr
  | cons w t ih =>
    simp only [List.all_cons, Bool.and_eq_true] at h
    simp only [List.cons_append, List.dropWhile_cons, h.1, if_pos]
    exact ih h.2

theorem matchFrom_occ (ws1 ws2 suf : List Char)
    (h1 : ws1.all pyWs = true) (h2 : ws2.all pyWs = true) :
    matchFrom ("dead".toList ++ (ws1 ++ ':' :: (ws2 ++ ("disable".toList ++ suf)))) = true := by
  unfold matchFrom
  rw [stripLit_append]
  show matchColon ((ws1 ++ ':' :: (ws2 ++ ("disable".toList ++ suf))).dropWhile pyWs) = true
  rw [dropWhile_ws_append ws1 _ h1 (by rw [List.dropWhile_cons]; simp [pyWs])]
  show (stripLit "disable".toList
      ((ws2 ++ ("disable".toList ++ suf)).dropWhile pyWs)).isSome = true
  rw [dropWhile_ws_append ws2 _ h2 (by
    rw [show ("disable".toList ++ suf) = 'd' :: (['i','s','a','b','l','e'] ++ suf) from rfl,
      List.dropWhile_cons]
    simp [pyWs])]
  rw [stripLit_append]
  rfl

theorem searchAux_of_matchFrom (l : List Char) (h : matchFrom l = true) :
    searchAux false l = true := by
  cases l with
  | nil => exact absurd h (by decide)
  | cons c cs => simp [searchAux, h]

theorem searchAux_append (pre : List Char) (b : Bool) (l : List Char)
    (h : searchAux (endWord b pre) l = true) :
    searchAux b (pre ++ l) = true := by
  induction pre generalizing b with
  | nil => exact h
  | cons c cs ih =>
    simp only [List.cons_append, searchAux, Bool.or_eq_true]
    exact Or.inr (ih (isWordChar c) h)

theorem endWord_concat (b : Bool) (pre' : List Char) (c : Char) :
    endWord b (pre' ++ [c]) = isWordChar c := by
  induction pre' generalizing b with
  | nil => rfl
  | cons d ds ih => exact ih (isWordChar d)

/-- C2 (amended): for every comment token whose text contains the
lowercase token sequence `dead`, optional (ASCII) whitespace, `:`,
optional (ASCII) whitespace, `disable` — case-sensitive,
spacing-insensitive — either at the start of the text or immediately
after an ASCII character that is not a letter, digit or underscore
(occurrences embedded in a word, as in `# undead: disable`, do not
count), `visit_comment` records a disable marker at that comment's
`(file, line)` location.  The ASCII proviso keeps every covered input
inside the fragment where the embedded character classes coincide with
the pattern's Unicode-aware ones. -/
theorem C2_disable_marker_recorded (v : Visitor) (lineno : Nat) (line : String)
    (pre ws1 ws2 suf : List Char)
    (hw1 : ws1.all pyWs = true) (hw2 : ws2.all pyWs = true)
    (hpre : pre = [] ∨ ∃ pre' c, pre = pre' ++ [c] ∧ c.toNat < 128 ∧ isWordChar c = false)
    (hline : line.toList =
      pre ++ ("dead".toList ++ (ws1 ++ ':' :: (ws2 ++ ("disable".toList ++ suf))))) :
    _file_line v.filename lineno ∈ (v.visit_comment lineno line).disabled := by
  have hpre' : endWord false pre = false := by
    rcases hpre with rfl | ⟨pre', c, rfl, _, hc⟩
    · rfl
    · rw [endWord_concat]
      exact hc
  have hsearch : disableSearch line = true := by
    unfold disableSearch
    rw [hline]
    refine searchAux_append pre false _ ?_
    rw [hpre']
    exact searchAux_of_matchFrom _ (matchFrom_occ ws1 ws2 suf hw1 hw2)
  unfold Visitor.visit_comment
  rw [hsearch]
  simpa using mem_addSet_self v.disabled (_file_line v.filename lineno)

/-- C2 witness: the spacing-insensitive comment `#dead:disable` records
a marker. -/
theorem C2_disable_marker_recorded_witness :
    _file_line (Visitor.init false).filename 1 ∈
      ((Visitor.init false).visit_comment 1 "#dead:disable").disabled :=
  C2_disable_marker_recorded (Visitor.init false) 1 "#dead:disable"
    ['#'] [] [] [] (by decide) (by decide)
    (Or.inr ⟨[], '#', rfl, by decide, by decide⟩) (by decide)

/-! ## C3 -/

/-- C3: `read(name, node)` adds the location to `reads_tests[name]` (in
a test file) or `reads[name]` (otherwise) of every scope currently on
the stack, not only the innermost one. -/
theorem C3_read_fans_out (v : Visitor) (name : String) (lineno : Nat)
    (s' : Scope) (hs : s' ∈ (v.read name lineno).scopes) :
    memU (if v.is_test then s'.reads_tests else s'.reads) name (v.definition_str lineno)
      = true := by
  unfold Visitor.read at hs
  simp only [List.mem_map] at hs
  obtain ⟨s, _, rfl⟩ := hs
  by_cases ht : v.is_test <;> simp [ht, memU_addU_self]

/-- C3 witness: in a two-scope stack, the outer (module) scope also
receives the read. -/
theorem C3_read_fans_out_witness :
    memU
      (if ((Visitor.init false).pushScope).is_test then
        (⟨[("x", [":3"])], [], []⟩ : Scope).reads_tests
      else (⟨[("x", [":3"])], [], []⟩ : Scope).reads)
      "x" (((Visitor.init false).pushScope).definition_str 3) = true :=
  C3_read_fans_out ((Visitor.init false).pushScope) "x" 3
    ⟨[("x", [":3"])], [], []⟩ (by decide)

/-! ## C4 -/

/-- C4: outside test files, `define(name, node)` adds the location to
`defines[name]` of the topmost scope only (the other scopes and the
rest of the visitor are untouched); during test-file traversal `define`
is a no-op. -/
theorem C4_define_topmost (v : Visitor) (name : String) (lineno : Nat) :
    (v.is_test = true → v.define name lineno = v) ∧
    (∀ init top, v.is_test = false → v.scopes = init ++ [top] →
      (v.define name lineno).scopes =
        init ++ [{ top with defines := addU top.defines name (v.definition_str lineno) }] ∧
      (v.define name lineno).previous_scopes = v.previous_scopes) := by
  constructor
  · intro ht
    unfold Visitor.define
    simp [ht]
  · intro init top ht hsc
    have hpos : ¬(v.is_test = true) := by simp [ht]
    let f : Scope → Scope :=
      fun s => { s with defines := addU s.defines name (v.definition_str lineno) }
    have hd : v.define name lineno = { v with scopes := updateLast f v.scopes } := by
      unfold Visitor.define
      rw [if_pos hpos]
    rw [hd]
    refine ⟨?_, rfl⟩
    show updateLast _ v.scopes = _
    rw [hsc, updateLast_append]

/-- C4 witness: concrete no-op in a test file, concrete topmost-only
update outside one. -/
theorem C4_define_topmost_witness :
    ({ Visitor.init false with is_test := true }.define "x" 1
        = { Visitor.init false with is_test := true }) ∧
    (((Visitor.init false).pushScope.define "x" 2).scopes =
        [Scope.init] ++ [⟨[], [("x", [":2"])], []⟩] ∧
      ((Visitor.init false).pushScope.define "x" 2).previous_scopes =
        (Visitor.init false).pushScope.previous_scopes) :=
  ⟨(C4_define_topmost { Visitor.init false with is_test := true } "x" 1).1 rfl,
    (C4_define_topmost ((Visitor.init false).pushScope) "x" 2).2
      [Scope.init] Scope.init rfl rfl⟩

/-! ## Decomposition of the reconciler

The lines printed while processing one `(k, v)` entry depend only on the
entry, its scope, the disable set and the allow-list; the
`unused_ignores` accumulator evolves by set subtraction only.  The
following functions and lemmas expose this structure of the loop of
`main` (`dead.py` lines 335-357). -/

/-- Lines printed by the classification chain for a single defines entry. -/
def defineLines (disabled allowed : List String) (s : Scope)
    (kv : String × List FileLine) : List String :=
  let k := kv.1
  let unread := !(hasKey s.reads k)
  let v := if unread then kv.2.filter (fun x => !(x ∈ disabled)) else kv.2
  if k ∈ allowed then []
  else if k.startsWith "__" && k.endsWith "__" then []
  else if k = "cls" || k = "self" then []
  else if unread && v.isEmpty then []
  else if unread && !(hasKey s.reads_tests k) then [neverReadLine k v]
  else if unread then [onlyTestsLine k v]
  else []

/-- Evolution of the `unused_ignores` accumulator for a single entry:
`unused_ignores.difference_update(v)` when `k` is unread. -/
def stepUnused (s : Scope) (u : List FileLine) (kv : String × List FileLine) :
    List FileLine :=
  if !(hasKey s.reads kv.1) then u.filter (fun x => !(x ∈ kv.2)) else u

/-- The final `unused_ignores` set, as the fold of `stepUnused` over all
entries of all scopes starting from the disable-marker set. -/
def finalUnused (scopes : List Scope) (disabled : List FileLine) : List FileLine :=
  scopes.foldl (fun u s => s.defines.foldl (stepUnused s) u) disabled

/-- All lines printed during one scope's classification loop. -/
def scopeLines (disabled allowed : List String) (s : Scope) : List String :=
  (s.defines.map (defineLines disabled allowed s)).flatten

/-- All lines printed during the whole per-scope loop of `main`. -/
def allLines (disabled allowed : List String) (scopes : List Scope) : List String :=
  (scopes.map (scopeLines disabled allowed)).flatten

theorem processDefine_spec (disabled allowed : List String) (s : Scope) (st : RecState)
    (kv : String × List FileLine) :
    processDefine disabled allowed s st kv =
      ⟨stepUnused s st.unused kv,
       st.out ++ defineLines disabled allowed s kv,
       if defineLines disabled allowed s kv = [] then st.retv else 1⟩ := by
  obtain ⟨k, locs⟩ := kv
  by_cases hr : hasKey s.reads k
  · by_cases h1 : k ∈ allowed
    · simp [processDefine, defineLines, stepUnused, hr, h1]
    · by_cases h2 : (k.startsWith "__" && k.endsWith "__") = true
      · simp [processDefine, defineLines, stepUnused, hr, h1, h2]
      · by_cases h3 : (k = "cls" || k = "self") = true
        · simp [processDefine, defineLines, stepUnused, hr, h1, h2, h3]
        · simp [processDefine, defineLines, stepUnused, hr, h1, h2, h3]
  · by_cases h1 : k ∈ allowed
    · simp [processDefine, defineLines, stepUnused, hr, h1]
    · by_cases h2 : (k.startsWith "__" && k.endsWith "__") = true
      · simp [processDefine, defineLines, stepUnused, hr, h1, h2]
      · by_cases h3 : (k = "cls" || k = "self") = true
        · simp [processDefine, defineLines, stepUnused, hr, h1, h2, h3]
        · by_cases h4 : (locs.filter (fun x => !(x ∈ disabled))).isEmpty = true
          · simp [processDefine, defineLines, stepUnused, hr, h1, h2, h3, h4]
          · by_cases h5 : hasKey s.reads_tests k
            · simp [processDefine, defineLines, stepUnused, hr, h1, h2, h3, h4, h5]
            · simp [processDefine, defineLines, stepUnused, hr, h1, h2, h3, h4, h5]

theorem foldl_processDefine (disabled allowed : List String) (s : Scope) :
    ∀ (items : List (String × List FileLine)) (st : RecState),
      items.foldl (processDefine disabled allowed s) st =
        ⟨items.foldl (stepUnused s) st.unused,
         st.out ++ (items.map (defineLines disabled allowed s)).flatten,
         if (items.map (defineLines disabled allowed s)).flatten = [] then st.retv else 1⟩ := by
  intro items
  induction items with
  | nil => intro st; simp
  | cons kv rest ih =>
    intro st
    rw [List.foldl_cons, ih, processDefine_spec]
    simp only [List.map_cons, List.flatten_cons, List.append_eq_nil, List.append_assoc]
    by_cases hkv : defineLines disabled allowed s kv = [] <;>
      by_cases hrest : (rest.map (defineLines disabled allowed s)).flatten = [] <;>
        simp [hkv, hrest]

theorem processScope_spec (disabled allowed : List String) (st : RecState) (s : Scope) :
    processScope disabled allowed st s =
      ⟨s.defines.foldl (stepUnused s) st.unused,
       st.out ++ scopeLines disabled allowed s,
       if scopeLines disabled allowed s = [] then st.retv else 1⟩ := by
  unfold processScope scopeLines
  exact foldl_processDefine disabled allowed s s.defines st

theorem foldl_processScope (disabled allowed : List String) :
    ∀ (scopes : List Scope) (st : RecState),
      scopes.foldl (processScope disabled allowed) st =
        ⟨scopes.foldl (fun u s => s.defines.foldl (stepUnused s) u) st.unused,
         st.out ++ allLines disabled allowed scopes,
         if allLines disabled allowed scopes = [] then st.retv else 1⟩ := by
  intro scopes
  induction scopes with
  | nil => intro st; simp [allLines]
  | cons sc rest ih =>
    intro st
    rw [List.foldl_cons, processScope_spec, ih]
    simp only [allLines, List.map_cons, List.flatten_cons, List.append_eq_nil, List.append_assoc]
    by_cases hsc : scopeLines disabled allowed sc = [] <;>
      by_cases hrest : (rest.map (scopeLines disabled allowed)).flatten = [] <;>
        simp [hsc, hrest]

/-- The reconciler, decomposed: the per-scope report lines in traversal
order, followed (when any disable marker survived) by the sorted block of
unused-marker lines; the return value records whether anything was
printed. -/
theorem reconcile_eq (scopes : List Scope) (disabled allowed : List String) :
    reconcile scopes disabled allowed =
      if (finalUnused scopes disabled).isEmpty then
        (allLines disabled allowed scopes,
          if allLines disabled allowed scopes = [] then 0 else 1)
      else
        (allLines disabled allowed scopes ++
          (pySorted (finalUnused scopes disabled)).map unusedIgnoreLine, 1) := by
  unfold reconcile
  rw [foldl_processScope]
  simp only [List.nil_append]
  rfl

theorem stepUnused_eq_filter (s : Scope) (u : List FileLine) (kv : String × List FileLine) :
    stepUnused s u kv = u.filter (fun x => hasKey s.reads kv.1 || !(x ∈ kv.2)) := by
  unfold stepUnused
  by_cases h : hasKey s.reads kv.1 <;> simp [h]

theorem foldl_stepUnused_filter (s : Scope) :
    ∀ (items : List (String × List FileLine)) (u : List FileLine),
      items.foldl (stepUnused s) u =
        u.filter (fun x => items.all (fun kv => hasKey s.reads kv.1 || !(x ∈ kv.2))) := by
  intro items
  induction items with
  | nil => intro u; simp
  | cons kv rest ih =>
    intro u
    rw [List.foldl_cons, ih, stepUnused_eq_filter, List.filter_filter]
    refine List.filter_congr ?_
    intro x _
    simp only [List.all_cons, Bool.and_comm]

/-- Characterization of the final `unused_ignores` set: a disable marker
survives if and only if it was in the original set and no unread name's
definition-location set contains it. -/
theorem finalUnused_eq_filter (scopes : List Scope) (disabled : List FileLine) :
    finalUnused scopes disabled =
      disabled.filter (fun m =>
        scopes.all (fun s =>
          s.defines.all (fun kv => hasKey s.reads kv.1 || !(m ∈ kv.2)))) := by
  unfold finalUnused
  induction scopes generalizing disabled with
  | nil => simp
  | cons sc rest ih =>
    rw [List.foldl_cons, ih, foldl_stepUnused_filter, List.filter_filter]
    refine List.filter_congr ?_
    intro x _
    simp only [List.all_cons, Bool.and_comm]

/-! ## C6 -/

/-- C6: for a defined name `k` absent from its scope's reads, a disable
marker `m` at one of its definition locations is removed from the
reported location set, the entry's report (if any) lists exactly the
locations surviving the subtraction, the whole report is suppressed when
every definition location is disabled, and `m` is never among the
markers reported as unused. -/
theorem C6_disable_suppresses (scopes : List Scope) (disabled allowed : List String)
    (s : Scope) (k : String) (locs : List FileLine) (m : FileLine)
    (hs : s ∈ scopes) (hkv : (k, locs) ∈ s.defines)
    (hunread : hasKey s.reads k = false)
    (hm : m ∈ locs) (hmd : m ∈ disabled) :
    (m ∉ locs.filter (fun x => !(x ∈ disabled))) ∧
    (∀ line ∈ defineLines disabled allowed s (k, locs),
        line = neverReadLine k (locs.filter (fun x => !(x ∈ disabled))) ∨
        line = onlyTestsLine k (locs.filter (fun x => !(x ∈ disabled)))) ∧
    ((∀ l ∈ locs, l ∈ disabled) → defineLines disabled allowed s (k, locs) = []) ∧
    m ∉ finalUnused scopes disabled := by
  refine ⟨?_, ?_, ?_, ?_⟩
  · intro hc
    have := (List.mem_filter.mp hc).2
    simp [hmd] at this
  · intro line hline
    unfold defineLines at hline
    dsimp only at hline
    simp only [hunread, Bool.not_false, Bool.true_and, if_true] at hline
    split at hline
    · exact absurd hline (List.not_mem_nil _)
    · split at hline
      · exact absurd hline (List.not_mem_nil _)
      · split at hline
        · exact absurd hline (List.not_mem_nil _)
        · split at hline
          · exact absurd hline (List.not_mem_nil _)
          · split at hline
            · exact Or.inl (by simpa using hline)
            · exact Or.inr (by simpa using hline)
  · intro hall
    have hv : locs.filter (fun x => !(x ∈ disabled)) = [] := by
      refine List.filter_eq_nil_iff.mpr ?_
      intro a ha
      simp [hall a ha]
    unfold defineLines
    dsimp only
    simp only [hunread, Bool.not_false, Bool.true_and, if_true, hv, List.isEmpty_nil]
    split
    · rfl
    · split
      · rfl
      · split
        · rfl
        · simp
  · intro hc
    rw [finalUnused_eq_filter] at hc
    have hall := (List.mem_filter.mp hc).2
    simp only [List.all_eq_true] at hall
    have := hall s hs (k, locs) hkv
    simp [hunread, hm] at this

/-- C6 witness: a disabled definition location of the unread name `x`
does not survive into the unused-marker report. -/
theorem C6_disable_suppresses_witness :
    "f.py:1" ∉
      finalUnused [⟨[], [("x", ["f.py:1", "f.py:3"])], []⟩] ["f.py:1"] :=
  (C6_disable_suppresses [⟨[], [("x", ["f.py:1", "f.py:3"])], []⟩] ["f.py:1"] []
    ⟨[], [("x", ["f.py:1", "f.py:3"])], []⟩ "x" ["f.py:1", "f.py:3"] "f.py:1"
    (by decide) (by decide) (by decide) (by decide) (by decide)).2.2.2

/-! ## C7 -/

/-- C7: every disable marker whose location coincides with no
definition location of an unread name is reported at end of run as
`<loc>: unused `# dead: disable``, and the run's exit status is 1. -/
theorem C7_unused_disable_reported (scopes : List Scope) (disabled allowed : List String)
    (m : FileLine) (hm : m ∈ disabled)
    (hnc : ∀ s ∈ scopes, ∀ kv ∈ s.defines, hasKey s.reads kv.1 = false → m ∉ kv.2) :
    unusedIgnoreLine m ∈ (reconcile scopes disabled allowed).1 ∧
    (reconcile scopes disabled allowed).2 = 1 := by
  have hmem : m ∈ finalUnused scopes disabled := by
    rw [finalUnused_eq_filter]
    refine List.mem_filter.mpr ⟨hm, ?_⟩
    simp only [List.all_eq_true]
    intro s hs kv hkv
    by_cases hr : hasKey s.reads kv.1
    · simp [hr]
    · have := hnc s hs kv hkv (by simpa using hr)
      simp [hr, this]
  have hne : ¬(finalUnused scopes disabled).isEmpty = true := by
    intro hc
    rw [List.isEmpty_iff] at hc
    rw [hc] at hmem
    exact absurd hmem (List.not_mem_nil _)
  rw [reconcile_eq]
  rw [if_neg hne]
  refine ⟨?_, rfl⟩
  exact List.mem_append.mpr
    (Or.inr (List.mem_map_of_mem _ ((List.mem_insertionSort _).mpr hmem)))

/-- C7 witness: a marker on the line of a name that is read is reported
as unused and forces exit status 1. -/
theorem C7_unused_disable_reported_witness :
    unusedIgnoreLine "f.py:1" ∈
      (reconcile [⟨[("x", ["f.py:2"])], [("x", ["f.py:1"])], []⟩] ["f.py:1"] []).1 ∧
    (reconcile [⟨[("x", ["f.py:2"])], [("x", ["f.py:1"])], []⟩] ["f.py:1"] []).2 = 1 :=
  C7_unused_disable_reported [⟨[("x", ["f.py:2"])], [("x", ["f.py:1"])], []⟩]
    ["f.py:1"] [] "f.py:1" (by decide) (by decide)

/-! ## C8 -/

/-- C8 counterexample: diagnostics are printed in definition insertion
order, not sorted by symbol name — the scope defining `b` on line 1 and
`a` on line 2 reports `b`'s line before `a`'s although `a` sorts first. -/
theorem C8_counterexample :
    (reconcile [⟨[], [("b", ["f.py:1"]), ("a", ["f.py:2"])], []⟩] [] []).1 =
      ["b is never read, defined in f.py:1", "a is never read, defined in f.py:2"] ∧
    ("a is never read, defined in f.py:2" < "b is never read, defined in f.py:1") :=
  ⟨by decide, by rw [String.lt_iff_toList_lt]; decide⟩

/-- C8 (amended): diagnostics are printed scope by scope in traversal
order, within a scope in definition insertion order (with each report's
location list sorted); the unused-disable-marker lines form a final
block sorted lexically by location. -/
theorem C8_output_order (scopes : List Scope) (disabled allowed : List String) :
    ((reconcile scopes disabled allowed).1 =
      allLines disabled allowed scopes ++
        (if (finalUnused scopes disabled).isEmpty then []
         else (pySorted (finalUnused scopes disabled)).map unusedIgnoreLine)) ∧
    List.Sorted (· ≤ ·) (pySorted (finalUnused scopes disabled)) := by
  constructor
  · rw [reconcile_eq]
    by_cases h : (finalUnused scopes disabled).isEmpty <;> simp [h]
  · exact List.sorted_insertionSort _ _

/-! ## C9 -/

/-- C9: `main` returns exit status 1 exactly when at least one
diagnostic line was emitted, and 0 when none was. -/
theorem C9_exit_status (scopes : List Scope) (disabled allowed : List String) :
    (reconcile scopes disabled allowed).2 =
      if (reconcile scopes disabled allowed).1 = [] then 0 else 1 := by
  rw [reconcile_eq]
  by_cases h : (finalUnused scopes disabled).isEmpty = true
  · rw [if_pos h]
  · rw [if_neg h]
    have hne : finalUnused scopes disabled ≠ [] := by
      simpa [List.isEmpty_iff] using h
    have hps : pySorted (finalUnused scopes disabled) ≠ [] := by
      intro hc
      apply hne
      have hlen := List.length_insertionSort (· ≤ ·) (finalUnused scopes disabled)
      unfold pySorted at hc
      rw [hc] at hlen
      exact List.eq_nil_of_length_eq_zero hlen.symm
    simp [List.append_eq_nil, hps]

/-! ## C5

Preservation lemmas: expression traversal and stub-body statement
traversal only record reads, so they change no scope's `defines` map and
leave `previous_scopes` untouched. -/

/-- The defines maps of the scope stack, position by position. -/
def scopesDefines (v : Visitor) : List UsageMap :=
  v.scopes.map (fun s => s.defines)

theorem read_scopesDefines (v : Visitor) (name : String) (lineno : Nat) :
    scopesDefines (v.read name lineno) = scopesDefines v ∧
    (v.read name lineno).previous_scopes = v.previous_scopes := by
  refine ⟨?_, rfl⟩
  unfold scopesDefines Visitor.read
  simp only [List.map_map]
  refine List.map_congr_left ?_
  intro s _
  by_cases ht : v.is_test <;> simp [ht]

theorem visit_Name_scopesDefines (v : Visitor) (id : String) (ctxLoad : Bool) (lineno : Nat) :
    scopesDefines (v.visit_Name id ctxLoad lineno) = scopesDefines v ∧
    (v.visit_Name id ctxLoad lineno).previous_scopes = v.previous_scopes := by
  unfold Visitor.visit_Name
  split
  · exact read_scopesDefines v id lineno
  · exact ⟨rfl, rfl⟩

mutual

theorem visitExp_scopesDefines (e : Exp) (v : Visitor) :
    scopesDefines (v.visitExp e) = scopesDefines v ∧
    (v.visitExp e).previous_scopes = v.previous_scopes := by
  cases e with
  | constant c n => exact ⟨rfl, rfl⟩
  | name id ctx n => exact visit_Name_scopesDefines v id ctx n
  | call f args n =>
    have h1 := visitExp_scopesDefines f v
    have h2 := visitExpList_scopesDefines args (v.visitExp f)
    exact ⟨h2.1.trans h1.1, h2.2.trans h1.2⟩

theorem visitExpList_scopesDefines (es : List Exp) (v : Visitor) :
    scopesDefines (v.visitExpList es) = scopesDefines v ∧
    (v.visitExpList es).previous_scopes = v.previous_scopes := by
  cases es with
  | nil => exact ⟨rfl, rfl⟩
  | cons e es' =>
    have h1 := visitExp_scopesDefines e v
    have h2 := visitExpList_scopesDefines es' (v.visitExp e)
    exact ⟨h2.1.trans h1.1, h2.2.trans h1.2⟩

end

theorem visitOptExp_scopesDefines (o : Option Exp) (v : Visitor) :
    scopesDefines (v.visitOptExp o) = scopesDefines v ∧
    (v.visitOptExp o).previous_scopes = v.previous_scopes := by
  cases o with
  | none => exact ⟨rfl, rfl⟩
  | some e => exact visitExp_scopesDefines e v

theorem visitStmt_scopesDefines (stmt : Stmt) (hs : stubStmtOk stmt = true) (v : Visitor) :
    scopesDefines (v.visitStmt stmt) = scopesDefines v ∧
    (v.visitStmt stmt).previous_scopes = v.previous_scopes := by
  cases stmt with
  | expr e n => exact visitExp_scopesDefines e v
  | passS n => exact ⟨rfl, rfl⟩
  | raiseS exc cause n =>
    have h1 := visitOptExp_scopesDefines exc v
    have h2 := visitOptExp_scopesDefines cause (v.visitOptExp exc)
    exact ⟨h2.1.trans h1.1, h2.2.trans h1.2⟩
  | assign t val n => simp [stubStmtOk] at hs

theorem visitStmts_scopesDefines (body : List Stmt) (hb : body.all stubStmtOk = true) :
    ∀ (v : Visitor),
      scopesDefines (v.visitStmts body) = scopesDefines v ∧
      (v.visitStmts body).previous_scopes = v.previous_scopes := by
  induction body with
  | nil => intro v; exact ⟨rfl, rfl⟩
  | cons stmt rest ih =>
    intro v
    simp only [List.all_cons, Bool.and_eq_true] at hb
    have h1 := visitStmt_scopesDefines stmt hb.1 v
    have h2 := ih hb.2 (v.visitStmt stmt)
    exact ⟨h2.1.trans h1.1, h2.2.trans h1.2⟩

theorem define_previous_scopes (v : Visitor) (name : String) (lineno : Nat) :
    (v.define name lineno).previous_scopes = v.previous_scopes := by
  unfold Visitor.define
  split <;> rfl

theorem popScope_concat (v : Visitor) (init : List Scope) (top : Scope)
    (hsc : v.scopes = init ++ [top]) :
    v.popScope =
      { v with scopes := init, previous_scopes := v.previous_scopes ++ [top] } := by
  unfold Visitor.popScope
  rw [hsc, List.dropLast_concat, List.getLast?_concat]

/-- Predicate transcribed from the claim's enumeration: a bare
string/ellipsis constant expression statement, a `pass` statement, or a
`raise` with no cause whose exception is a bare name in — or a call to a
bare name in — the allow-list `{AssertionError, NotImplementedError}`. -/
def specStubStmt (stmt : Stmt) : Prop :=
  (∃ d ln ln2, stmt = .expr (.constant (.str d) ln) ln2) ∨
  (∃ ln ln2, stmt = .expr (.constant .ellipsis ln) ln2) ∨
  (∃ ln, stmt = .passS ln) ∨
  (∃ exc ln, stmt = .raiseS (some exc) none ln ∧
    ((∃ id ctx ln2, exc = .name id ctx ln2 ∧ id ∈ STUB_EXCEPTIONS) ∨
     (∃ id ctx ln2 args ln3,
        exc = .call (.name id ctx ln2) args ln3 ∧ id ∈ STUB_EXCEPTIONS)))

theorem stubStmtOk_iff_spec (stmt : Stmt) : stubStmtOk stmt = true ↔ specStubStmt stmt := by
  cases stmt with
  | expr e ln =>
    cases e with
    | constant c ln2 => cases c <;> simp [stubStmtOk, specStubStmt]
    | name id ctx n => simp [stubStmtOk, specStubStmt]
    | call f args n => simp [stubStmtOk, specStubStmt]
  | passS ln => simp [stubStmtOk, specStubStmt]
  | assign t val ln => simp [stubStmtOk, specStubStmt]
  | raiseS exc cause ln =>
    cases cause with
    | some c => simp [stubStmtOk, specStubStmt]
    | none =>
      cases exc with
      | none => simp [stubStmtOk, specStubStmt]
      | some e =>
        cases e with
        | constant c n => simp [stubStmtOk, specStubStmt]
        | name id ctx n =>
          simp [stubStmtOk, specStubStmt]
          constructor
          · intro h
            exact ⟨id, by cases ctx <;> simp, h⟩
          · rintro ⟨i, hi, hm⟩
            rcases hi with ⟨rfl, -⟩ | ⟨rfl, -⟩ <;> exact hm
        | call f cargs n =>
          cases f with
          | constant c n2 => simp [stubStmtOk, specStubStmt]
          | name id ctx n2 =>
            simp [stubStmtOk, specStubStmt]
            constructor
            · intro h
              exact ⟨id, by cases ctx <;> simp, h⟩
            · rintro ⟨i, hi, hm⟩
              rcases hi with ⟨rfl, -⟩ | ⟨rfl, -⟩ <;> exact hm
          | call g gargs n2 => simp [stubStmtOk, specStubStmt]

/-- C5: a function is classified as a stub exactly when every statement
of its body is a docstring/ellipsis expression, a `pass`, or an
allow-listed no-cause `raise`; and for a stub, even with parameter
tracking enabled, the parameter scope pushed by `visit_FunctionDef` ends
with an empty defines map — in particular no parameter name of the
function is defined in it. -/
theorem C5_stub_functions (node : FunctionDef) (v : Visitor) :
    (_is_stub_function node = true ↔ ∀ stmt ∈ node.body, specStubStmt stmt) ∧
    (_is_stub_function node = true →
      ∃ ps : Scope,
        (v.visit_FunctionDef node).previous_scopes = v.previous_scopes ++ [ps] ∧
        ps.defines = [] ∧
        ∀ a ∈ argList node.args, hasKey ps.defines a.arg = false) := by
  constructor
  · rw [_is_stub_function, List.all_eq_true]
    constructor
    · intro h stmt hstmt
      exact (stubStmtOk_iff_spec stmt).mp (h stmt hstmt)
    · intro h stmt hstmt
      exact (stubStmtOk_iff_spec stmt).mpr (h stmt hstmt)
  · intro hstub
    unfold Visitor.visit_FunctionDef
    rw [hstub]
    simp only [Bool.not_true, Bool.and_false, Bool.false_eq_true, if_neg, if_false]
    set v1 := v.define node.name node.lineno with hv1
    set v2 := v1.pushScope with hv2
    set v4 := v2.visitStmts node.body with hv4
    have hbody : node.body.all stubStmtOk = true := hstub
    have hP := visitStmts_scopesDefines node.body hbody v2
    have hmap : scopesDefines v4 = scopesDefines v1 ++ [[]] := by
      rw [hP.1, hv2]
      unfold scopesDefines Visitor.pushScope
      simp [Scope.init]
    have hne : v4.scopes ≠ [] := by
      intro hc
      have : scopesDefines v4 = [] := by rw [scopesDefines, hc]; rfl
      rw [hmap] at this
      simp at this
    rcases List.eq_nil_or_concat v4.scopes with hc | ⟨init4, ps, hc⟩
    · exact absurd hc hne
    rw [List.concat_eq_append] at hc
    have hlast : ps.defines = [] := by
      have h1 : scopesDefines v4 = init4.map (fun s => s.defines) ++ [ps.defines] := by
        rw [scopesDefines, hc]
        simp
      rw [hmap] at h1
      have := (List.append_inj' h1.symm (by simp)).2
      simpa using this
    rw [popScope_concat v4 init4 ps hc]
    refine ⟨ps, ?_, hlast, ?_⟩
    · show v4.previous_scopes ++ [ps] = v.previous_scopes ++ [ps]
      rw [hP.2, hv2]
      show v1.previous_scopes ++ [ps] = _
      rw [hv1, define_previous_scopes]
    · intro a _
      rw [hlast]
      rfl

/-- C5 witness: a concrete one-parameter stub (`def f(a): raise
NotImplementedError`) visited with parameter tracking on leaves the
parameter scope's defines empty. -/
theorem C5_stub_functions_witness :
    ∃ ps : Scope,
      ((Visitor.init true).visit_FunctionDef
          ⟨"f", 1, ⟨[], [⟨"a", 1⟩], none, [], none⟩,
            [Stmt.raiseS (some (Exp.name "NotImplementedError" true 2)) none 2]⟩).previous_scopes =
        (Visitor.init true).previous_scopes ++ [ps] ∧
      ps.defines = [] ∧
      ∀ a ∈ argList (⟨"f", 1, ⟨[], [⟨"a", 1⟩], none, [], none⟩,
          [Stmt.raiseS (some (Exp.name "NotImplementedError" true 2)) none 2]⟩ :
            FunctionDef).args,
        hasKey ps.defines a.arg = false :=
  (C5_stub_functions
    ⟨"f", 1, ⟨[], [⟨"a", 1⟩], none, [], none⟩,
      [Stmt.raiseS (some (Exp.name "NotImplementedError" true 2)) none 2]⟩
    (Visitor.init true)).2 (by decide)

/-! ## C10

An arbitrary sequence of Visitor operations, and the invariant that the
reads recorded in any non-module scope (still active or already closed)
are also recorded in the module scope at the bottom of the stack. -/

/-- The primitive operations of the Visitor: record a read, record a
definition, enter/leave `Visitor.scope()`, enter a `file_ctx`, and visit
a comment token. -/
inductive Op where
  | readOp : String → Nat → Op
  | defineOp : String → Nat → Op
  | pushOp : Op
  | popOp : Op
  | fileOp : String → Bool → Op
  | commentOp : Nat → String → Op

/-- Apply one operation to the visitor state. -/
def applyOp (v : Visitor) : Op → Visitor
  | .readOp name lineno => v.read name lineno
  | .defineOp name lineno => v.define name lineno
  | .pushOp => v.pushScope
  | .popOp => v.popScope
  | .fileOp f t => { v with filename := f, is_test := t }
  | .commentOp lineno line => v.visit_comment lineno line

/-- Run a sequence of operations. -/
def runOps (v : Visitor) (ops : List Op) : Visitor :=
  ops.foldl applyOp v

/-- Well-scopedness of an operation sequence at stack depth `d`: a pop
only occurs when a non-module scope is on the stack (`Visitor.scope()`
is a balanced context manager, and `main` pops the module scope only
after all traversal is done). -/
def okOps : Nat → List Op → Bool
  | _, [] => true
  | d, .pushOp :: rest => okOps (d + 1) rest
  | d, .popOp :: rest => decide (2 ≤ d) && okOps (d - 1) rest
  | d, _ :: rest => okOps d rest

/-- Pointwise inclusion of usage maps. -/
def subsetU (a b : UsageMap) : Prop :=
  ∀ n l, memU a n l = true → memU b n l = true

/-- The reads of `s` (plain and test) are included in those of `m`. -/
def scopeLe (s m : Scope) : Prop :=
  subsetU s.reads m.reads ∧ subsetU s.reads_tests m.reads_tests

/-- The C10 invariant: the module scope sits at the bottom of the stack
and every other scope, active or closed, reads-below it. -/
def Inv (v : Visitor) : Prop :=
  ∃ mod rest, v.scopes = mod :: rest ∧
    ∀ s ∈ rest ++ v.previous_scopes, scopeLe s mod

theorem subsetU_addU_right {a b : UsageMap} (k : String) (l : FileLine)
    (h : subsetU a b) : subsetU a (addU b k l) :=
  fun n x hx => memU_addU_mono k l (h n x hx)

theorem subsetU_addU_both {a b : UsageMap} (k : String) (l : FileLine)
    (h : subsetU a b) : subsetU (addU a k l) (addU b k l) := by
  intro n x hx
  rcases memU_addU_inv hx with h' | ⟨rfl, rfl⟩
  · exact memU_addU_mono k l (h n x h')
  · exact memU_addU_self b _ _

theorem scopeLe_init (m : Scope) : scopeLe Scope.init m := by
  constructor <;> intro n l h <;> simp [Scope.init, memU] at h

theorem mem_updateLast (f : Scope → Scope) :
    ∀ (l : List Scope) (s' : Scope), s' ∈ updateLast f l →
      s' ∈ l ∨ ∃ s ∈ l, s' = f s := by
  intro l
  induction l with
  | nil => intro s' h; simp [updateLast] at h
  | cons x xs ih =>
    cases xs with
    | nil =>
      intro s' h
      simp [updateLast] at h
      exact Or.inr ⟨x, by simp, h⟩
    | cons y ys =>
      intro s' h
      rw [show updateLast f (x :: y :: ys) = x :: updateLast f (y :: ys) from rfl] at h
      rcases List.mem_cons.mp h with h | h
      · exact Or.inl (by simp [h])
      · rcases ih s' h with h' | ⟨s, hs, rfl⟩
        · exact Or.inl (List.mem_cons_of_mem _ h')
        · exact Or.inr ⟨s, List.mem_cons_of_mem _ hs, rfl⟩

theorem length_updateLast (f : Scope → Scope) :
    ∀ (l : List Scope), (updateLast f l).length = l.length := by
  intro l
  induction l with
  | nil => rfl
  | cons x xs ih =>
    cases xs with
    | nil => rfl
    | cons y ys =>
      rw [show updateLast f (x :: y :: ys) = x :: updateLast f (y :: ys) from rfl]
      simpa using ih

theorem inv_read (v : Visitor) (name : String) (lineno : Nat) (h : Inv v) :
    Inv (v.read name lineno) := by
  obtain ⟨mod, rest, hsc, hall⟩ := h
  by_cases ht : v.is_test
  · refine ⟨{ mod with reads_tests := addU mod.reads_tests name (v.definition_str lineno) },
      rest.map (fun s =>
        { s with reads_tests := addU s.reads_tests name (v.definition_str lineno) }),
      ?_, ?_⟩
    · unfold Visitor.read
      rw [hsc]
      simp [ht]
    · intro s' hs'
      rcases List.mem_append.mp hs' with hs' | hs'
      · obtain ⟨s, hsmem, rfl⟩ := List.mem_map.mp hs'
        have hle := hall s (List.mem_append.mpr (Or.inl hsmem))
        exact ⟨hle.1, subsetU_addU_both _ _ hle.2⟩
      · have hle := hall s' (List.mem_append.mpr (Or.inr hs'))
        exact ⟨hle.1, subsetU_addU_right _ _ hle.2⟩
  · refine ⟨{ mod with reads := addU mod.reads name (v.definition_str lineno) },
      rest.map (fun s =>
        { s with reads := addU s.reads name (v.definition_str lineno) }),
      ?_, ?_⟩
    · unfold Visitor.read
      rw [hsc]
      simp [ht]
    · intro s' hs'
      rcases List.mem_append.mp hs' with hs' | hs'
      · obtain ⟨s, hsmem, rfl⟩ := List.mem_map.mp hs'
        have hle := hall s (List.mem_append.mpr (Or.inl hsmem))
        exact ⟨subsetU_addU_both _ _ hle.1, hle.2⟩
      · have hle := hall s' (List.mem_append.mpr (Or.inr hs'))
        exact ⟨subsetU_addU_right _ _ hle.1, hle.2⟩

theorem inv_define (v : Visitor) (name : String) (lineno : Nat) (h : Inv v) :
    Inv (v.define name lineno) := by
  obtain ⟨mod, rest, hsc, hall⟩ := h
  unfold Visitor.define
  split
  · cases rest with
    | nil =>
      refine ⟨{ mod with defines := addU mod.defines name (v.definition_str lineno) },
        [], ?_, ?_⟩
      · show updateLast _ v.scopes = _
        rw [hsc]
        rfl
      · intro s hs
        have hle := hall s (by simpa using hs)
        exact ⟨hle.1, hle.2⟩
    | cons r rs =>
      refine ⟨mod,
        updateLast
          (fun s => { s with defines := addU s.defines name (v.definition_str lineno) })
          (r :: rs), ?_, ?_⟩
      · show updateLast _ v.scopes = _
        rw [hsc]
        rfl
      · intro s' hs'
        rcases List.mem_append.mp hs' with hs' | hs'
        · rcases mem_updateLast _ _ _ hs' with hm | ⟨s, hsm, rfl⟩
          · exact hall _ (List.mem_append.mpr (Or.inl hm))
          · have hle := hall s (List.mem_append.mpr (Or.inl hsm))
            exact ⟨hle.1, hle.2⟩
        · exact hall _ (List.mem_append.mpr (Or.inr hs'))
  · exact ⟨mod, rest, hsc, hall⟩

theorem inv_push (v : Visitor) (h : Inv v) : Inv v.pushScope := by
  obtain ⟨mod, rest, hsc, hall⟩ := h
  refine ⟨mod, rest ++ [Scope.init], ?_, ?_⟩
  · show v.scopes ++ [Scope.init] = _
    rw [hsc]
    rfl
  · intro s hs
    rcases List.mem_append.mp hs with hs | hs
    · rcases List.mem_append.mp hs with hs | hs
      · exact hall s (List.mem_append.mpr (Or.inl hs))
      · have : s = Scope.init := by simpa using hs
        rw [this]
        exact scopeLe_init mod
    · exact hall s (List.mem_append.mpr (Or.inr hs))

theorem inv_pop (v : Visitor) (hlen : 2 ≤ v.scopes.length) (h : Inv v) :
    Inv v.popScope := by
  obtain ⟨mod, rest, hsc, hall⟩ := h
  have hrest : rest ≠ [] := by
    intro hc
    rw [hsc, hc] at hlen
    simp at hlen
  rcases List.eq_nil_or_concat rest with hc | ⟨init', last, hc⟩
  · exact absurd hc hrest
  rw [List.concat_eq_append] at hc
  have hsc' : v.scopes = (mod :: init') ++ [last] := by
    rw [hsc, hc]
    rfl
  rw [popScope_concat v (mod :: init') last hsc']
  refine ⟨mod, init', rfl, ?_⟩
  intro s hs
  show scopeLe s mod
  rcases List.mem_append.mp hs with hs | hs
  · exact hall s (List.mem_append.mpr (Or.inl (by rw [hc]; exact List.mem_append_left _ hs)))
  · rcases List.mem_append.mp hs with hs | hs
    · exact hall s (List.mem_append.mpr (Or.inr hs))
    · have : s = last := by simpa using hs
      rw [this]
      exact hall last (List.mem_append.mpr (Or.inl (by rw [hc]; simp)))

theorem inv_file (v : Visitor) (f : String) (t : Bool) (h : Inv v) :
    Inv { v with filename := f, is_test := t } := by
  obtain ⟨mod, rest, hsc, hall⟩ := h
  exact ⟨mod, rest, hsc, hall⟩

/-- Comment visiting changes neither the scope stack nor the closed
scopes, whatever the comment text. -/
theorem visit_comment_state (v : Visitor) (lineno : Nat) (line : String) :
    (v.visit_comment lineno line).scopes = v.scopes ∧
    (v.visit_comment lineno line).previous_scopes = v.previous_scopes := by
  unfold Visitor.visit_comment
  split <;> exact ⟨rfl, rfl⟩

theorem inv_comment (v : Visitor) (lineno : Nat) (line : String) (h : Inv v) :
    Inv (v.visit_comment lineno line) := by
  obtain ⟨mod, rest, hsc, hall⟩ := h
  exact ⟨mod, rest, (visit_comment_state v lineno line).1.trans hsc,
    (visit_comment_state v lineno line).2 ▸ hall⟩

theorem run_preserves :
    ∀ (ops : List Op) (v : Visitor), Inv v → okOps v.scopes.length ops = true →
      Inv (runOps v ops) := by
  intro ops
  induction ops with
  | nil => intro v h _; exact h
  | cons op rest ih =>
    intro v h hok
    show Inv (rest.foldl applyOp (applyOp v op))
    cases op with
    | readOp name lineno =>
      refine ih (v.read name lineno) (inv_read v name lineno h) ?_
      have hl : (v.read name lineno).scopes.length = v.scopes.length := by
        simp [Visitor.read]
      rw [hl]
      simpa [okOps] using hok
    | defineOp name lineno =>
      refine ih (v.define name lineno) (inv_define v name lineno h) ?_
      have hl : (v.define name lineno).scopes.length = v.scopes.length := by
        unfold Visitor.define
        split
        · exact length_updateLast _ _
        · rfl
      rw [hl]
      simpa [okOps] using hok
    | pushOp =>
      refine ih v.pushScope (inv_push v h) ?_
      have hl : v.pushScope.scopes.length = v.scopes.length + 1 := by
        simp [Visitor.pushScope]
      rw [hl]
      simpa [okOps] using hok
    | popOp =>
      have hok' : (2 ≤ v.scopes.length) ∧ okOps (v.scopes.length - 1) rest = true := by
        simpa [okOps] using hok
      refine ih v.popScope (inv_pop v hok'.1 h) ?_
      have hl : v.popScope.scopes.length = v.scopes.length - 1 := by
        simp [Visitor.popScope]
      rw [hl]
      exact hok'.2
    | fileOp f t =>
      refine ih _ (inv_file v f t h) ?_
      simpa [okOps] using hok
    | commentOp lineno line =>
      refine ih (v.visit_comment lineno line) (inv_comment v lineno line h) ?_
      have hl : (v.visit_comment lineno line).scopes.length = v.scopes.length := by
        rw [(visit_comment_state v lineno line).1]
      rw [hl]
      simpa [okOps] using hok

/-- C10: after any well-scoped sequence of Visitor operations starting
from a fresh visitor, the module scope is still at the bottom of the
stack and the reads and test-reads recorded in every other scope —
active or closed — are subsets of the module scope's. -/
theorem C10_reads_subset_module (ta : Bool) (ops : List Op)
    (hok : okOps 1 ops = true) :
    ∃ mod rest, (runOps (Visitor.init ta) ops).scopes = mod :: rest ∧
      ∀ s ∈ rest ++ (runOps (Visitor.init ta) ops).previous_scopes,
        subsetU s.reads mod.reads ∧ subsetU s.reads_tests mod.reads_tests :=
  run_preserves ops (Visitor.init ta)
    ⟨Scope.init, [], rfl, by simp [Visitor.init]⟩ (by simpa using hok)

/-- C10 witness: a push, a read inside the pushed scope, and a pop. -/
theorem C10_reads_subset_module_witness :
    ∃ mod rest,
      (runOps (Visitor.init false)
          [Op.pushOp, Op.readOp "x" 1, Op.popOp]).scopes = mod :: rest ∧
      ∀ s ∈ rest ++ (runOps (Visitor.init false)
          [Op.pushOp, Op.readOp "x" 1, Op.popOp]).previous_scopes,
        subsetU s.reads mod.reads ∧ subsetU s.reads_tests mod.reads_tests :=
  C10_reads_subset_module false [Op.pushOp, Op.readOp "x" 1, Op.popOp] (by decide)

end dead
